import Mathlib

/-!
Verification of the delivery-planning core of the order-fulfillment backend:
the capacity allocator (`selectOrdersForDelivery` in
`webapp/backend/internal/service/product.go`), the chunked status updater
(`UpdateStatusesChunked` in `webapp/backend/internal/repository/order.go`),
and the planning orchestrator (`GenerateDeliveryPlan`).

Go integers are modelled as `Int` (no claim under verification concerns
64-bit overflow).  The Go `context` cancellation signal is modelled as a
function `Nat → Bool`: the k-th poll of `ctx.Done()` during one allocator
run observes the value of the function at k.  Fallible Go code returning
`(T, error)` is modelled as `T × Option GoError` (the pair Go returns), or
as `Except GoError T` for inner loops whose value Go discards on error.
-/

set_option maxHeartbeats 1000000

namespace OxTuning

/-- Model of `model.Order` restricted to the fields the planner reads
(`order_id`, `weight`, `value`, see `GetShippingOrders`). -/
structure Order where
  orderID : Int
  weight : Int
  value : Int
deriving DecidableEq, Repr

/-- Model of `model.DeliveryPlan` (robot id, totals, selected orders). -/
structure DeliveryPlan where
  robotID : String
  totalWeight : Int
  totalValue : Int
  orders : List Order
deriving DecidableEq, Repr

/-- The only failure the allocator itself produces: `ctx.Err()` after a
cancellation checkpoint fired. -/
inductive GoError where
  | ctxCanceled
deriving DecidableEq, Repr

/-- A cancellation signal: the k-th poll of `ctx.Done()` observes `ctx k`. -/
abbrev Ctx := Nat → Bool

/-- The never-cancelled signal (a context whose `Done` channel never fires). -/
def ctxNone : Ctx := fun _ => false

/-- Sum of the `Weight` fields of a list of orders. -/
def sumW (l : List Order) : Int := (l.map Order.weight).sum

/-- Sum of the `Value` fields of a list of orders. -/
def sumV (l : List Order) : Int := (l.map Order.value).sum

/-- The zero-weight orders set aside by the allocator's preprocessing pass
(`o.Weight <= 0` branch of the loop at product.go:129-135). -/
def zeroItems (orders : List Order) : List Order :=
  orders.filter (fun o => decide (o.weight ≤ 0))

/-- The positive-weight orders kept for the optimization problem
(`filtered` in product.go:128-136). -/
def posItems (orders : List Order) : List Order :=
  orders.filter (fun o => !decide (o.weight ≤ 0))

/-!  Greedy branch (product.go:141-180).

The Go code sorts by descending `float64(Value)/float64(Weight)` with
`sort.Slice` (an unstable comparison sort).  The comparison is modelled
exactly on the rationals by cross-multiplication (every weight here is
≥ 1), and the sort is modelled as an insertion sort; no verified claim
depends on the order of equal-ratio items or on float64 rounding. -/

/-- Comparison `items[i].ratio > items[j].ratio` of product.go:156, as an
exact rational comparison (weights in this branch are positive). -/
def ratioGT (a b : Order) : Bool := decide (a.value * b.weight > b.value * a.weight)

/-- Insertion step of the modelled descending-ratio sort. -/
def insertDesc (o : Order) : List Order → List Order
  | [] => [o]
  | x :: xs => if ratioGT o x then o :: x :: xs else x :: insertDesc o xs

/-- Model of the `sort.Slice(items, ...)` call at product.go:155-157. -/
def sortDesc (l : List Order) : List Order := l.foldr insertDesc []

/-- Greedy selection loop (product.go:161-172): per item, poll the
cancellation signal, then admit the item iff its weight fits in the
remaining capacity.  Returns the admitted items (in iteration order), the
accumulated `totalValue` and the next poll index. -/
def greedyLoop (ctx : Ctx) : List Order → Int → Int → List Order → Nat →
    Except GoError (List Order × Int × Nat)
  | [], _, totalValue, acc, polls => .ok (acc, totalValue, polls)
  | o :: rest, capLeft, totalValue, acc, polls =>
    if ctx polls then .error .ctxCanceled
    else if o.weight ≤ capLeft then
      greedyLoop ctx rest (capLeft - o.weight) (totalValue + o.value) (acc ++ [o]) (polls + 1)
    else
      greedyLoop ctx rest capLeft totalValue acc (polls + 1)

/-- The greedy fallback branch of `selectOrdersForDelivery`
(product.go:141-180): sort by ratio, greedily admit, prepend the
zero-weight items, recompute the total weight (but not the total value)
from the final set. -/
def greedyPlan (ctx : Ctx) (zeroWeightItems filtered : List Order)
    (robotID : String) (robotCapacity : Int) : DeliveryPlan × Option GoError :=
  let items := sortDesc filtered
  match greedyLoop ctx items robotCapacity 0 [] 0 with
  | .error e => (⟨ "", 0, 0, []⟩, some e)
  | .ok (sel, totalValue, _) =>
    let bestSet := zeroWeightItems ++ sel
    let totalWeight := bestSet.foldl (fun a o => a + o.weight) 0
    (⟨robotID, totalWeight, totalValue, bestSet⟩, none)

/-!  Exact DP branch (product.go:182-256).

`dp` (`make([]int, cap+1)`, zero-initialised) and each `keep[i]` row are
modelled as total functions `Int → Int` / `Int → Bool`; the code only ever
reads and writes indices in `[0, cap]`. -/

/-- Pointwise update of the modelled `dp` array (`dp[c] = x`). -/
def setI (f : Int → Int) (i : Int) (x : Int) : Int → Int :=
  fun j => if j = i then x else f j

/-- Pointwise update of a modelled `keep` row (`keep[i][c] = true`). -/
def setB (f : Int → Bool) (i : Int) : Int → Bool :=
  fun j => if j = i then true else f j

/-- The descending index sequence `cap, cap-1, ..., w` traversed by the
inner loop `for c := cap; c >= w; c--` of product.go:199. -/
def descRange (w cap : Int) : List Int :=
  (List.range ((cap + 1 - w).toNat)).map (fun k : Nat => cap - (k : Int))

/-- The running state of the DP loops: the `dp` table, the current item's
`keep` row, the `steps` counter and the poll index. -/
abbrev DPState := (Int → Int) × (Int → Bool) × Nat × Nat

/-- One iteration of the inner DP loop body (product.go:200-211): `steps`
is incremented, every 4096th step polls the cancellation signal, then the
table entry at `c` is updated on strict improvement and the improvement is
recorded in the `keep` row. -/
def dpStep (ctx : Ctx) (w v : Int) (s : DPState) (c : Int) : Except GoError DPState :=
  let steps1 := s.2.2.1 + 1
  let pollRes : Except GoError Nat :=
    if steps1 % 4096 = 0 then
      (if ctx s.2.2.2 then .error .ctxCanceled else .ok (s.2.2.2 + 1))
    else .ok s.2.2.2
  match pollRes with
  | .error e => .error e
  | .ok polls1 =>
    let dp := s.1
    if dp (c - w) + v > dp c then
      .ok (setI dp c (dp (c - w) + v), setB s.2.1 c, steps1, polls1)
    else
      .ok (dp, s.2.1, steps1, polls1)

/-- Inner DP loop for one item (product.go:199-212), as the fold of the
loop body over the descending index range (aborting on cancellation). -/
def dpInner (ctx : Ctx) (w v cap : Int) (s : DPState) : Except GoError DPState :=
  (descRange w cap).foldlM (dpStep ctx w v) s

/-- Outer DP loop over the items (product.go:193-213): items with weight
above the capacity are skipped (their `keep` row stays all-false), all
others run the inner loop. -/
def dpOuter (ctx : Ctx) (cap : Int) : List Order → (Int → Int) → List (Int → Bool) →
    Nat → Nat → Except GoError ((Int → Int) × List (Int → Bool) × Nat × Nat)
  | [], dp, rows, steps, polls => .ok (dp, rows, steps, polls)
  | o :: rest, dp, rows, steps, polls =>
    if cap < o.weight then
      dpOuter ctx cap rest dp (rows ++ [(fun _ => false : Int → Bool)]) steps polls
    else
      match dpInner ctx o.weight o.value cap (dp, fun _ => false, steps, polls) with
      | .error e => .error e
      | .ok (dp1, row1, steps1, polls1) =>
        dpOuter ctx cap rest dp1 (rows ++ [row1]) steps1 polls1

/-- The ascending index sequence `0, 1, ..., cap` traversed by the scan
loop `for c := 0; c <= cap; c++` of product.go:218. -/
def ascRange (cap : Int) : List Int :=
  (List.range ((cap + 1).toNat)).map (fun k : Nat => (k : Int))

/-- Best-capacity scan (product.go:216-223): `c` runs from 0 to `cap`,
keeping the first strict maximum of `dp` together with its index
(`bestVal`, `bestC`), both starting at 0. -/
def bestScan (dp : Int → Int) (cap : Int) : Int × Int :=
  (ascRange cap).foldl (fun best c => if dp c > best.1 then (dp c, c) else best) (0, 0)

/-- Reconstruction walk (product.go:226-236) over the (item, keep-row)
pairs in reverse processing order: break once the residual capacity is
≤ 0, take an item whenever its row is set at the current capacity. -/
def reconstruct : List (Order × (Int → Bool)) → Int → List Order
  | [], _ => []
  | (o, row) :: rest, c =>
    if c ≤ 0 then []
    else if row c then o :: reconstruct rest (c - o.weight)
    else reconstruct rest c

/-- The exact-DP branch of `selectOrdersForDelivery` (product.go:182-256):
fill the table, scan for the best capacity, reconstruct, prepend the
zero-weight items, recompute both totals from the final set, then reverse
the whole list. -/
def dpPlan (ctx : Ctx) (zeroWeightItems filtered : List Order)
    (robotID : String) (robotCapacity : Int) : DeliveryPlan × Option GoError :=
  match dpOuter ctx robotCapacity filtered (fun _ => 0) [] 0 0 with
  | .error e => (⟨ "", 0, 0, []⟩, some e)
  | .ok (dp, rows, _, _) =>
    let best := bestScan dp robotCapacity
    let bestSet := reconstruct ((filtered.zip rows).reverse) best.2
    let bestSet := zeroWeightItems ++ bestSet
    let totalWeight := bestSet.foldl (fun a o => a + o.weight) 0
    let totalValue := bestSet.foldl (fun a o => a + o.value) 0
    (⟨robotID, totalWeight, totalValue, bestSet.reverse⟩, none)

/-- Model of `selectOrdersForDelivery` (product.go:118-256): degenerate
inputs yield the empty plan; otherwise zero-weight orders are set aside,
and the cell budget `n * capacity > 5000000` selects the greedy fallback
over the exact DP solver. -/
def selectOrdersForDelivery (ctx : Ctx) (orders : List Order)
    (robotID : String) (robotCapacity : Int) : DeliveryPlan × Option GoError :=
  if orders.length = 0 ∨ robotCapacity ≤ 0 then
    (⟨robotID, 0, 0, []⟩, none)
  else
    let parts := orders.partition (fun o => decide (o.weight ≤ 0))
    let zeroWeightItems := parts.1
    let filtered := parts.2
    if (filtered.length : Int) * robotCapacity > 5000000 then
      greedyPlan ctx zeroWeightItems filtered robotID robotCapacity
    else
      dpPlan ctx zeroWeightItems filtered robotID robotCapacity

/-!  Chunked status update (`UpdateStatusesChunked`, order.go:96-127). -/

/-- The consecutive id batches the chunk loop of order.go:102-107 forms:
slices `[i, i+1000)` of the id list. -/
def chunkList (l : List Int) : List (List Int) :=
  if l.isEmpty then [] else l.take 1000 :: chunkList (l.drop 1000)
termination_by l.length
decreasing_by
  rename_i h
  have hl : l ≠ [] := by simpa using h
  have : 0 < l.length := List.length_pos.mpr hl
  simp only [List.length_drop]
  omega

/-- Model of `UpdateStatusesChunked` (order.go:96-127).  `execOK` is the
oracle for one `UPDATE ... WHERE order_id IN (chunk)` statement; the
function returns the statements actually issued (in order, the failing one
included) and whether the whole operation succeeded.  A failing statement
aborts the loop before any later batch is issued. -/
def updateStatusesChunked (execOK : List Int → Bool) (l : List Int) :
    List (List Int) × Bool :=
  if l.isEmpty then ([], true)
  else
    let chunk := l.take 1000
    if execOK chunk then
      let r := updateStatusesChunked execOK (l.drop 1000)
      (chunk :: r.1, r.2)
    else ([chunk], false)
termination_by l.length
decreasing_by
  rename_i h
  have hl : l ≠ [] := by simpa using h
  have : 0 < l.length := List.length_pos.mpr hl
  simp only [List.length_drop]
  omega

/-- Modelled from the spec: `RunInTransaction` / `ExecTx` and the database
executor are not under the extracted sources; per §6 the transaction
"executes work inside one atomic transaction, propagating rollback on any
failure including cancellation".  `GenerateDeliveryPlan`
(product.go:79-110) is modelled as: run the allocator on the supplied
eligible orders; on allocator failure return no plan and commit nothing;
on success with a non-empty plan, run the chunked status update; a failing
update rolls back (no committed batch), otherwise the issued batches
commit.  The second component is the list of committed update batches. -/
def GenerateDeliveryPlan (ctx : Ctx) (execOK : List Int → Bool)
    (orders : List Order) (robotID : String) (capacity : Int) :
    Option DeliveryPlan × List (List Int) :=
  match selectOrdersForDelivery ctx orders robotID capacity with
  | (_, some _) => (none, [])
  | (plan, none) =>
    if plan.orders.length > 0 then
      match updateStatusesChunked execOK (plan.orders.map Order.orderID) with
      | (_, false) => (none, [])
      | (issued, true) => (some plan, issued)
    else (some plan, [])

/-!  Spec-side definition of the optimization objective, for the
refinement claims: the maximum total value over subsets of a list of
orders whose total weight fits the capacity (§4.1 of the spec). -/

/-- Modelled from the spec: "the subset S maximizing Σvalue(S) subject to
Σweight(S) ≤ C, where each order is either fully included or excluded".
The maximum achievable total value over sublists within capacity `c`. -/
def knapsackOpt (l : List Order) (c : Int) : Int :=
  (((l.sublists.filter (fun s => decide (sumW s ≤ c))).map sumV).foldl max 0)

/-!  Proof-side functional mirrors of the DP loops.  One inner pass over
the table for an item of weight `w` and value `v` acts pointwise as
`passUpd`, and the `keep` row it leaves behind is `rowOf`; iterating over
the item list gives `foldPass` and `rowsOf`.  `sublistMax` is the
mathematical optimum the table entries are shown to equal. -/

/-- Pointwise effect of one inner DP pass on the table. -/
def passUpd (cap w v : Int) (dp : Int → Int) : Int → Int :=
  fun j => if w ≤ j ∧ j ≤ cap then max (dp j) (dp (j - w) + v) else dp j

/-- The `keep` row one inner DP pass records. -/
def rowOf (cap w v : Int) (dp : Int → Int) : Int → Bool :=
  fun j => decide (w ≤ j ∧ j ≤ cap ∧ dp (j - w) + v > dp j)

/-- The table after processing a list of items. -/
def foldPass (cap : Int) (l : List Order) (dp : Int → Int) : Int → Int :=
  l.foldl (fun d o => passUpd cap o.weight o.value d) dp

/-- The `keep` rows recorded while processing a list of items. -/
def rowsOf (cap : Int) : List Order → (Int → Int) → List (Int → Bool)
  | [], _ => []
  | o :: rest, dp => rowOf cap o.weight o.value dp :: rowsOf cap rest (passUpd cap o.weight o.value dp)

/-- Maximum over sublists `S` of `l` with `sumW S ≤ j` of
`dp (j - sumW S) + sumV S`; with `dp = 0` this is the knapsack optimum at
capacity `j`. -/
def sublistMax : List Order → (Int → Int) → Int → Int
  | [], dp, j => dp j
  | o :: rest, dp, j =>
    if o.weight ≤ j then
      max (sublistMax rest dp j) (sublistMax rest dp (j - o.weight) + o.value)
    else sublistMax rest dp j

/-!  Basic lemmas about sums and the preprocessing split. -/

theorem foldl_add_weight (l : List Order) (a : Int) :
    l.foldl (fun x o => x + o.weight) a = a + sumW l := by
  induction l generalizing a with
  | nil => simp [sumW]
  | cons o rest ih =>
    simp only [List.foldl_cons, ih, sumW, List.map_cons, List.sum_cons]
    ring

theorem foldl_add_value (l : List Order) (a : Int) :
    l.foldl (fun x o => x + o.value) a = a + sumV l := by
  induction l generalizing a with
  | nil => simp [sumV]
  | cons o rest ih =>
    simp only [List.foldl_cons, ih, sumV, List.map_cons, List.sum_cons]
    ring

theorem sumW_append (a b : List Order) : sumW (a ++ b) = sumW a + sumW b := by
  simp [sumW]

theorem sumV_append (a b : List Order) : sumV (a ++ b) = sumV a + sumV b := by
  simp [sumV]

theorem sumW_reverse (l : List Order) : sumW l.reverse = sumW l := by
  simp [sumW, List.sum_reverse]

theorem sumV_reverse (l : List Order) : sumV l.reverse = sumV l := by
  simp [sumV, List.sum_reverse]

theorem sumW_cons (o : Order) (l : List Order) : sumW (o :: l) = o.weight + sumW l := by
  simp [sumW]

theorem sumV_cons (o : Order) (l : List Order) : sumV (o :: l) = o.value + sumV l := by
  simp [sumV]

theorem sumW_nonpos (l : List Order) (h : ∀ o ∈ l, o.weight ≤ 0) : sumW l ≤ 0 := by
  induction l with
  | nil => simp [sumW]
  | cons o rest ih =>
    rw [sumW_cons]
    have h1 := h o (by simp)
    have h2 := ih (fun o ho => h o (by simp [ho]))
    omega

theorem sumW_nonneg (l : List Order) (h : ∀ o ∈ l, 1 ≤ o.weight) : 0 ≤ sumW l := by
  induction l with
  | nil => simp [sumW]
  | cons o rest ih =>
    rw [sumW_cons]
    have h1 := h o (by simp)
    have h2 := ih (fun o ho => h o (by simp [ho]))
    omega

theorem sumV_nonneg (l : List Order) (h : ∀ o ∈ l, 0 ≤ o.value) : 0 ≤ sumV l := by
  induction l with
  | nil => simp [sumV]
  | cons o rest ih =>
    rw [sumV_cons]
    have h1 := h o (by simp)
    have h2 := ih (fun o ho => h o (by simp [ho]))
    omega

theorem sumW_perm {a b : List Order} (h : a.Perm b) : sumW a = sumW b := by
  simp only [sumW]
  exact (h.map Order.weight).sum_eq

theorem sumV_perm {a b : List Order} (h : a.Perm b) : sumV a = sumV b := by
  simp only [sumV]
  exact (h.map Order.value).sum_eq

theorem mem_posItems {o : Order} {orders : List Order} :
    o ∈ posItems orders ↔ o ∈ orders ∧ 1 ≤ o.weight := by
  simp only [posItems, List.mem_filter, Bool.not_eq_eq_eq_not, Bool.not_true,
    decide_eq_false_iff_not]
  constructor
  · rintro ⟨hm, hw⟩
    exact ⟨hm, by omega⟩
  · rintro ⟨hm, hw⟩
    exact ⟨hm, by omega⟩

theorem mem_zeroItems {o : Order} {orders : List Order} :
    o ∈ zeroItems orders ↔ o ∈ orders ∧ o.weight ≤ 0 := by
  simp [zeroItems]

theorem posItems_weight {orders : List Order} : ∀ o ∈ posItems orders, 1 ≤ o.weight :=
  fun _ ho => (mem_posItems.mp ho).2

theorem zeroItems_weight {orders : List Order} : ∀ o ∈ zeroItems orders, o.weight ≤ 0 :=
  fun _ ho => (mem_zeroItems.mp ho).2

/-!  Branch selection of `selectOrdersForDelivery`. -/

theorem select_degenerate (ctx : Ctx) (orders : List Order) (rid : String) (cap : Int)
    (h : orders = [] ∨ cap ≤ 0) :
    selectOrdersForDelivery ctx orders rid cap = (⟨rid, 0, 0, []⟩, none) := by
  unfold selectOrdersForDelivery
  rw [if_pos]
  rcases h with h | h
  · exact Or.inl (by simp [h])
  · exact Or.inr h

theorem select_greedy (ctx : Ctx) (orders : List Order) (rid : String) (cap : Int)
    (h1 : orders ≠ []) (h2 : 0 < cap)
    (h3 : ((posItems orders).length : Int) * cap > 5000000) :
    selectOrdersForDelivery ctx orders rid cap =
      greedyPlan ctx (zeroItems orders) (posItems orders) rid cap := by
  unfold posItems at h3
  unfold selectOrdersForDelivery
  rw [if_neg (by simp [List.length_eq_zero, h1]; omega)]
  simp only [List.partition_eq_filter_filter]
  have hfe : (not ∘ fun o : Order => decide (o.weight ≤ 0)) =
      (fun o : Order => !decide (o.weight ≤ 0)) := rfl
  rw [hfe, if_pos h3]
  rfl

theorem select_dp (ctx : Ctx) (orders : List Order) (rid : String) (cap : Int)
    (h1 : orders ≠ []) (h2 : 0 < cap)
    (h3 : ¬((posItems orders).length : Int) * cap > 5000000) :
    selectOrdersForDelivery ctx orders rid cap =
      dpPlan ctx (zeroItems orders) (posItems orders) rid cap := by
  unfold posItems at h3
  unfold selectOrdersForDelivery
  rw [if_neg (by simp [List.length_eq_zero, h1]; omega)]
  simp only [List.partition_eq_filter_filter]
  have hfe : (not ∘ fun o : Order => decide (o.weight ≤ 0)) =
      (fun o : Order => !decide (o.weight ≤ 0)) := rfl
  rw [hfe, if_neg h3]
  rfl

/-!  The greedy branch. -/

theorem insertDesc_perm (o : Order) (l : List Order) : (insertDesc o l).Perm (o :: l) := by
  induction l with
  | nil => exact List.Perm.refl _
  | cons x xs ih =>
    unfold insertDesc
    split
    · exact List.Perm.refl _
    · exact (ih.cons x).trans (List.Perm.swap o x xs)

theorem sortDesc_perm (l : List Order) : (sortDesc l).Perm l := by
  induction l with
  | nil => exact List.Perm.refl _
  | cons x xs ih =>
    exact (insertDesc_perm x (sortDesc xs)).trans (ih.cons x)

theorem greedyLoop_ok (ctx : Ctx) :
    ∀ (items : List Order) (capLeft tv : Int) (acc : List Order) (polls : Nat)
      (sel : List Order) (tv2 : Int) (p2 : Nat),
      greedyLoop ctx items capLeft tv acc polls = .ok (sel, tv2, p2) →
      ∃ picked, sel = acc ++ picked ∧ picked.Sublist items ∧ tv2 = tv + sumV picked ∧
        (0 ≤ capLeft → sumW picked ≤ capLeft) := by
  intro items
  induction items with
  | nil =>
    intro capLeft tv acc polls sel tv2 p2 h
    refine ⟨[], ?_, List.Sublist.refl _, ?_, ?_⟩ <;>
      simp only [greedyLoop, Except.ok.injEq, Prod.mk.injEq] at h <;>
      simp [h.1, h.2.1, sumV, sumW]
  | cons o rest ih =>
    intro capLeft tv acc polls sel tv2 p2 h
    unfold greedyLoop at h
    split at h
    · exact absurd h (by simp)
    · split at h
      · rename_i hfit
        obtain ⟨picked, hsel, hsub, htv, hw⟩ := ih _ _ _ _ _ _ _ h
        refine ⟨o :: picked, ?_, List.Sublist.cons₂ o hsub, ?_, ?_⟩
        · simpa using hsel
        · rw [htv, sumV_cons]; ring
        · intro hcl
          have := hw (by omega)
          rw [sumW_cons]
          omega
      · obtain ⟨picked, hsel, hsub, htv, hw⟩ := ih _ _ _ _ _ _ _ h
        exact ⟨picked, hsel, hsub.cons o, htv, hw⟩

theorem greedyPlan_ok (ctx : Ctx) (z f : List Order) (rid : String) (cap : Int)
    (hok : (greedyPlan ctx z f rid cap).2 = none) :
    ∃ picked, picked.Sublist (sortDesc f) ∧
      (greedyPlan ctx z f rid cap).1 =
        ⟨rid, sumW z + sumW picked, sumV picked, z ++ picked⟩ ∧
      (0 ≤ cap → sumW picked ≤ cap) := by
  simp only [greedyPlan] at hok ⊢
  cases hres : greedyLoop ctx (sortDesc f) cap 0 [] 0 with
  | error e => rw [hres] at hok; exact absurd hok (by simp)
  | ok r =>
    obtain ⟨sel, tv, p⟩ := r
    obtain ⟨picked, hsel, hsub, htv, hw⟩ := greedyLoop_ok ctx _ _ _ _ _ _ _ _ hres
    dsimp only
    refine ⟨picked, hsub, ?_, fun hc => hw hc⟩
    simp only [List.nil_append] at hsel
    subst hsel
    simp only [DeliveryPlan.mk.injEq, foldl_add_weight, sumW_append, true_and, and_true]
    exact ⟨by omega, by omega⟩

/-!  Structural facts about the DP branch's result (no optimality yet). -/

theorem dpPlan_shape (ctx : Ctx) (z f : List Order) (rid : String) (cap : Int)
    (hok : (dpPlan ctx z f rid cap).2 = none) :
    ∃ dpf rows s p,
      dpOuter ctx cap f (fun _ => 0) [] 0 0 = .ok (dpf, rows, s, p) ∧
      (dpPlan ctx z f rid cap).1 =
        ⟨rid, sumW (z ++ reconstruct ((f.zip rows).reverse) (bestScan dpf cap).2),
          sumV (z ++ reconstruct ((f.zip rows).reverse) (bestScan dpf cap).2),
          (z ++ reconstruct ((f.zip rows).reverse) (bestScan dpf cap).2).reverse⟩ := by
  simp only [dpPlan] at hok ⊢
  cases hres : dpOuter ctx cap f (fun _ => 0) [] 0 0 with
  | error e => rw [hres] at hok; exact absurd hok (by simp)
  | ok r =>
    obtain ⟨dpf, rows, s, p⟩ := r
    refine ⟨dpf, rows, s, p, rfl, ?_⟩
    dsimp only
    simp only [DeliveryPlan.mk.injEq, foldl_add_weight, foldl_add_value, true_and, and_true]
    omega

theorem greedyPlan_weight (ctx : Ctx) (z f : List Order) (rid : String) (cap : Int) :
    (greedyPlan ctx z f rid cap).1.totalWeight = sumW (greedyPlan ctx z f rid cap).1.orders := by
  simp only [greedyPlan]
  cases hres : greedyLoop ctx (sortDesc f) cap 0 [] 0 with
  | error e => simp [sumW]
  | ok r =>
    obtain ⟨sel, tv, p⟩ := r
    dsimp only
    rw [foldl_add_weight]
    omega

theorem dpPlan_weight (ctx : Ctx) (z f : List Order) (rid : String) (cap : Int) :
    (dpPlan ctx z f rid cap).1.totalWeight = sumW (dpPlan ctx z f rid cap).1.orders := by
  simp only [dpPlan]
  cases hres : dpOuter ctx cap f (fun _ => 0) [] 0 0 with
  | error e => simp [sumW]
  | ok r =>
    obtain ⟨dpf, rows, s, p⟩ := r
    dsimp only
    rw [foldl_add_weight, sumW_reverse]
    omega

theorem dpPlan_value (ctx : Ctx) (z f : List Order) (rid : String) (cap : Int) :
    (dpPlan ctx z f rid cap).1.totalValue = sumV (dpPlan ctx z f rid cap).1.orders := by
  simp only [dpPlan]
  cases hres : dpOuter ctx cap f (fun _ => 0) [] 0 0 with
  | error e => simp [sumV]
  | ok r =>
    obtain ⟨dpf, rows, s, p⟩ := r
    dsimp only
    rw [foldl_add_value, sumV_reverse]
    omega

/-- Shared helper: on every path (degenerate, greedy, DP, cancelled) the
returned `totalWeight` is the sum of the weights of the returned orders. -/
theorem select_totalWeight_eq (ctx : Ctx) (orders : List Order) (rid : String) (cap : Int) :
    (selectOrdersForDelivery ctx orders rid cap).1.totalWeight =
      sumW (selectOrdersForDelivery ctx orders rid cap).1.orders := by
  by_cases hdeg : orders = [] ∨ cap ≤ 0
  · rw [select_degenerate ctx orders rid cap hdeg]
    simp [sumW]
  · push_neg at hdeg
    obtain ⟨h1, h2⟩ := hdeg
    by_cases hth : ((posItems orders).length : Int) * cap > 5000000
    · rw [select_greedy ctx orders rid cap h1 (by omega) hth]
      exact greedyPlan_weight ctx _ _ rid cap
    · rw [select_dp ctx orders rid cap h1 (by omega) hth]
      exact dpPlan_weight ctx _ _ rid cap

/-- C9: the returned plan's `TotalWeight` equals the sum of the `Weight`
fields of the orders in the plan's `Orders` sequence, on every path of the
allocator (both branches recompute it from the final selection). -/
theorem claim9_total_weight_consistent (ctx : Ctx) (orders : List Order) (rid : String) (cap : Int) :
    (selectOrdersForDelivery ctx orders rid cap).1.totalWeight =
      sumW (selectOrdersForDelivery ctx orders rid cap).1.orders :=
  select_totalWeight_eq ctx orders rid cap

/-- C8: with capacity 0 and a non-empty all-positive-weight order list the
allocator succeeds with the empty plan (zero aggregate weight and value). -/
theorem claim8_zero_capacity_empty_plan (ctx : Ctx) (orders : List Order) (rid : String)
    (h1 : orders ≠ []) (h2 : ∀ o ∈ orders, 0 < o.weight) :
    selectOrdersForDelivery ctx orders rid 0 = (⟨rid, 0, 0, []⟩, none) :=
  select_degenerate ctx orders rid 0 (Or.inr le_rfl)

/-- Witness for C8 at a concrete input. -/
theorem claim8_witness :
    (([⟨1, 2, 10⟩] : List Order) ≠ [] ∧ ∀ o ∈ ([⟨1, 2, 10⟩] : List Order), 0 < o.weight) ∧
    selectOrdersForDelivery ctxNone [⟨1, 2, 10⟩] "r1" 0 = (⟨ "r1", 0, 0, []⟩, none) :=
  ⟨⟨by decide, by decide⟩,
    claim8_zero_capacity_empty_plan ctxNone [⟨1, 2, 10⟩] "r1" (by decide) (by decide)⟩

/-- C3 fails as stated: with capacity 0 (which the claim explicitly
includes) the allocator returns before the zero-weight preprocessing, so a
weight-0 order is not included in the returned plan. -/
theorem claim3_counterexample :
    (⟨1, 0, 5⟩ : Order).weight ≤ 0 ∧ (⟨1, 0, 5⟩ : Order) ∈ ([⟨1, 0, 5⟩] : List Order) ∧
    ¬(⟨1, 0, 5⟩ : Order) ∈ (selectOrdersForDelivery ctxNone [⟨1, 0, 5⟩] "r1" 0).1.orders := by
  decide

/-- C3 amended: for every positive capacity, every order with weight ≤ 0
is included in the successful plan's selection. -/
theorem claim3_zero_weight_included (ctx : Ctx) (orders : List Order) (rid : String) (cap : Int)
    (h2 : 0 < cap) (hok : (selectOrdersForDelivery ctx orders rid cap).2 = none) :
    ∀ o ∈ orders, o.weight ≤ 0 → o ∈ (selectOrdersForDelivery ctx orders rid cap).1.orders := by
  intro o ho hw
  by_cases h1 : orders = []
  · subst h1; simp at ho
  · by_cases hth : ((posItems orders).length : Int) * cap > 5000000
    · rw [select_greedy ctx orders rid cap h1 h2 hth] at hok ⊢
      obtain ⟨picked, hsub, hplan, hcap⟩ := greedyPlan_ok ctx _ _ rid cap hok
      rw [hplan]
      simp only [List.mem_append]
      exact Or.inl (mem_zeroItems.mpr ⟨ho, hw⟩)
    · rw [select_dp ctx orders rid cap h1 h2 hth] at hok ⊢
      obtain ⟨dpf, rows, s, p, hres, hplan⟩ := dpPlan_shape ctx _ _ rid cap hok
      rw [hplan]
      simp only [List.mem_reverse, List.mem_append]
      exact Or.inl (mem_zeroItems.mpr ⟨ho, hw⟩)

/-- Witness for the amended C3 at a concrete input. -/
theorem claim3_witness :
    ((0 : Int) < 4 ∧ (selectOrdersForDelivery ctxNone [⟨1, 2, 10⟩, ⟨2, 0, 5⟩] "r1" 4).2 = none) ∧
    (⟨2, 0, 5⟩ : Order) ∈ (selectOrdersForDelivery ctxNone [⟨1, 2, 10⟩, ⟨2, 0, 5⟩] "r1" 4).1.orders :=
  ⟨⟨by decide, by decide⟩,
    claim3_zero_weight_included ctxNone [⟨1, 2, 10⟩, ⟨2, 0, 5⟩] "r1" 4 (by decide) (by decide)
      ⟨2, 0, 5⟩ (by decide) (by decide)⟩

/-- C4 fails as stated: in the greedy branch the aggregate value is not
recomputed from the final selection, so the values of the prepended
zero-weight orders are missing from `TotalValue` (7 returned, 12 summed). -/
theorem claim4_counterexample :
    (selectOrdersForDelivery ctxNone [⟨1, 0, 5⟩, ⟨2, 1, 7⟩] "r1" 5000001).1.totalValue ≠
      sumV (selectOrdersForDelivery ctxNone [⟨1, 0, 5⟩, ⟨2, 1, 7⟩] "r1" 5000001).1.orders := by
  decide

/-- C4 amended: the aggregate weight always equals the sum over the
selection; the aggregate value equals the sum over the selection in the
degenerate and exact-DP branches, but in the greedy branch it equals the
sum over only the positive-weight selected orders (zero-weight orders'
values are not added). -/
theorem claim4_totals_recomputed (ctx : Ctx) (orders : List Order) (rid : String) (cap : Int)
    (hok : (selectOrdersForDelivery ctx orders rid cap).2 = none) :
    ((selectOrdersForDelivery ctx orders rid cap).1.totalWeight =
      sumW (selectOrdersForDelivery ctx orders rid cap).1.orders) ∧
    (orders = [] ∨ cap ≤ 0 ∨ ((posItems orders).length : Int) * cap ≤ 5000000 →
      (selectOrdersForDelivery ctx orders rid cap).1.totalValue =
        sumV (selectOrdersForDelivery ctx orders rid cap).1.orders) ∧
    (orders ≠ [] → 0 < cap → ((posItems orders).length : Int) * cap > 5000000 →
      (selectOrdersForDelivery ctx orders rid cap).1.totalValue =
        sumV ((selectOrdersForDelivery ctx orders rid cap).1.orders.filter
          (fun o => decide (0 < o.weight)))) := by
  refine ⟨select_totalWeight_eq ctx orders rid cap, ?_, ?_⟩
  · intro hcase
    by_cases hdeg : orders = [] ∨ cap ≤ 0
    · rw [select_degenerate ctx orders rid cap hdeg]
      simp [sumV]
    · push_neg at hdeg
      obtain ⟨h1, h2⟩ := hdeg
      have hth : ¬((posItems orders).length : Int) * cap > 5000000 := by
        rcases hcase with h | h | h
        · exact absurd h h1
        · omega
        · omega
      rw [select_dp ctx orders rid cap h1 (by omega) hth]
      exact dpPlan_value ctx _ _ rid cap
  · intro h1 h2 hth
    rw [select_greedy ctx orders rid cap h1 h2 hth] at hok ⊢
    obtain ⟨picked, hsub, hplan, hcap⟩ := greedyPlan_ok ctx _ _ rid cap hok
    rw [hplan]
    dsimp only
    rw [List.filter_append]
    have hz : (zeroItems orders).filter (fun o => decide (0 < o.weight)) = [] := by
      rw [List.filter_eq_nil]
      intro o ho
      have := zeroItems_weight o ho
      simp only [decide_eq_true_eq]
      omega
    have hp : picked.filter (fun o => decide (0 < o.weight)) = picked := by
      rw [List.filter_eq_self]
      intro o ho
      have hmem : o ∈ posItems orders := ((sortDesc_perm _).mem_iff).mp (hsub.subset ho)
      have := posItems_weight o hmem
      simp only [decide_eq_true_eq]
      omega
    rw [hz, hp, List.nil_append]

/-- Witness for the amended C4 at a concrete input. -/
theorem claim4_witness :
    (selectOrdersForDelivery ctxNone [⟨1, 2, 10⟩, ⟨2, 0, 5⟩] "r1" 4).2 = none ∧
    (((selectOrdersForDelivery ctxNone [⟨1, 2, 10⟩, ⟨2, 0, 5⟩] "r1" 4).1.totalWeight =
      sumW (selectOrdersForDelivery ctxNone [⟨1, 2, 10⟩, ⟨2, 0, 5⟩] "r1" 4).1.orders) ∧
    (([⟨1, 2, 10⟩, ⟨2, 0, 5⟩] : List Order) = [] ∨ (4 : Int) ≤ 0 ∨
        ((posItems [⟨1, 2, 10⟩, ⟨2, 0, 5⟩]).length : Int) * 4 ≤ 5000000 →
      (selectOrdersForDelivery ctxNone [⟨1, 2, 10⟩, ⟨2, 0, 5⟩] "r1" 4).1.totalValue =
        sumV (selectOrdersForDelivery ctxNone [⟨1, 2, 10⟩, ⟨2, 0, 5⟩] "r1" 4).1.orders) ∧
    (([⟨1, 2, 10⟩, ⟨2, 0, 5⟩] : List Order) ≠ [] → (0 : Int) < 4 →
        ((posItems [⟨1, 2, 10⟩, ⟨2, 0, 5⟩]).length : Int) * 4 > 5000000 →
      (selectOrdersForDelivery ctxNone [⟨1, 2, 10⟩, ⟨2, 0, 5⟩] "r1" 4).1.totalValue =
        sumV ((selectOrdersForDelivery ctxNone [⟨1, 2, 10⟩, ⟨2, 0, 5⟩] "r1" 4).1.orders.filter
          (fun o => decide (0 < o.weight))))) :=
  ⟨by decide, claim4_totals_recomputed ctxNone [⟨1, 2, 10⟩, ⟨2, 0, 5⟩] "r1" 4 (by decide)⟩

/-!  The chunked status update. -/

theorem chunkList_join (l : List Int) : (chunkList l).join = l := by
  induction l using chunkList.induct with
  | case1 x hx =>
    have hx2 : x = [] := by simpa using hx
    subst hx2
    simp [chunkList]
  | case2 x hx ih =>
    rw [chunkList, if_neg (by simpa using hx)]
    simp [ih]

theorem chunkList_length (l : List Int) : (chunkList l).length = (l.length + 999) / 1000 := by
  induction l using chunkList.induct with
  | case1 x hx =>
    have hx2 : x = [] := by simpa using hx
    subst hx2
    simp [chunkList]
  | case2 x hx ih =>
    rw [chunkList, if_neg (by simpa using hx)]
    have hlen : 0 < x.length := List.length_pos.mpr (by simpa using hx)
    simp only [List.length_cons, ih, List.length_drop]
    omega

theorem chunkList_mem (l : List Int) : ∀ b ∈ chunkList l, b ≠ [] ∧ b.length ≤ 1000 := by
  induction l using chunkList.induct with
  | case1 x hx =>
    have hx2 : x = [] := by simpa using hx
    subst hx2
    simp [chunkList]
  | case2 x hx ih =>
    rw [chunkList, if_neg (by simpa using hx)]
    intro b hb
    rcases List.mem_cons.mp hb with hb | hb
    · subst hb
      constructor
      · simp only [ne_eq, List.take_eq_nil_iff]
        push_neg
        exact ⟨by simp, by simpa using hx⟩
      · simp [List.length_take]
    · exact ih b hb

theorem update_all_ok (l : List Int) :
    updateStatusesChunked (fun _ => true) l = (chunkList l, true) := by
  induction l using chunkList.induct with
  | case1 x hx =>
    rw [updateStatusesChunked, if_pos hx, chunkList, if_pos hx]
  | case2 x hx ih =>
    rw [updateStatusesChunked, chunkList]
    simp only [if_neg hx]
    simp [ih]

theorem update_abort (execOK : List Int → Bool) (l : List Int) :
    ∀ pre b post, chunkList l = pre ++ b :: post →
      (∀ a ∈ pre, execOK a = true) → execOK b = false →
      updateStatusesChunked execOK l = (pre ++ [b], false) := by
  induction l using chunkList.induct with
  | case1 x hx =>
    intro pre b post heq hpre hb
    rw [chunkList, if_pos hx] at heq
    exact absurd heq (by simp)
  | case2 x hx ih =>
    intro pre b post heq hpre hb
    rw [chunkList, if_neg hx] at heq
    cases pre with
    | nil =>
      simp only [List.nil_append, List.cons.injEq] at heq
      rw [updateStatusesChunked, if_neg hx]
      dsimp only
      rw [heq.1, hb]
      simp
    | cons a pre2 =>
      simp only [List.cons_append, List.cons.injEq] at heq
      obtain ⟨ha, heq2⟩ := heq
      have hexa : execOK a = true := hpre a (by simp)
      rw [updateStatusesChunked, if_neg hx]
      dsimp only
      rw [ha, hexa]
      simp only [if_pos rfl]
      rw [ih pre2 b post heq2 (fun a2 ha2 => hpre a2 (by simp [ha2])) hb]
      simp

/-- C7: the chunked updater partitions a non-empty id list into
`ceil(k/1000)` consecutive non-empty batches of at most 1000 ids whose
concatenation is exactly the input (every id covered exactly once), issues
them sequentially (all of them when every statement succeeds), and on the
first failing batch stops, having issued exactly the preceding batches and
the failing one. -/
theorem claim7_chunked_batches (execOK : List Int → Bool) (l : List Int) (h : l ≠ []) :
    (chunkList l).join = l ∧
    (chunkList l).length = (l.length + 999) / 1000 ∧
    (∀ b ∈ chunkList l, b ≠ [] ∧ b.length ≤ 1000) ∧
    updateStatusesChunked (fun _ => true) l = (chunkList l, true) ∧
    (∀ pre b post, chunkList l = pre ++ b :: post →
      (∀ a ∈ pre, execOK a = true) → execOK b = false →
      updateStatusesChunked execOK l = (pre ++ [b], false)) :=
  ⟨chunkList_join l, chunkList_length l, chunkList_mem l, update_all_ok l,
    update_abort execOK l⟩

/-- Witness for C7 at the spec's 2000-identity example: the batch count is
`(2000 + 999) / 1000 = 2`. -/
theorem claim7_witness :
    (List.replicate 2000 (1 : Int) ≠ []) ∧
    ((chunkList (List.replicate 2000 (1 : Int))).join = List.replicate 2000 (1 : Int) ∧
    (chunkList (List.replicate 2000 (1 : Int))).length =
      ((List.replicate 2000 (1 : Int)).length + 999) / 1000 ∧
    (∀ b ∈ chunkList (List.replicate 2000 (1 : Int)), b ≠ [] ∧ b.length ≤ 1000) ∧
    updateStatusesChunked (fun _ => true) (List.replicate 2000 (1 : Int)) =
      (chunkList (List.replicate 2000 (1 : Int)), true) ∧
    (∀ pre b post, chunkList (List.replicate 2000 (1 : Int)) = pre ++ b :: post →
      (∀ a ∈ pre, (fun _ => true : List Int → Bool) a = true) →
      (fun _ => true : List Int → Bool) b = false →
      updateStatusesChunked (fun _ => true) (List.replicate 2000 (1 : Int)) =
        (pre ++ [b], false))) :=
  ⟨by decide, claim7_chunked_batches (fun _ => true) (List.replicate 2000 (1 : Int)) (by decide)⟩

/-!  Cancellation behaviour. -/

theorem greedyPlan_err (ctx : Ctx) (z f : List Order) (rid : String) (cap : Int)
    (h : (greedyPlan ctx z f rid cap).2.isSome) :
    (greedyPlan ctx z f rid cap).1 = ⟨ "", 0, 0, []⟩ := by
  simp only [greedyPlan] at h ⊢
  cases hres : greedyLoop ctx (sortDesc f) cap 0 [] 0 with
  | error e => simp
  | ok r =>
    obtain ⟨sel, tv, p⟩ := r
    rw [hres] at h
    simp at h

theorem dpPlan_err (ctx : Ctx) (z f : List Order) (rid : String) (cap : Int)
    (h : (dpPlan ctx z f rid cap).2.isSome) :
    (dpPlan ctx z f rid cap).1 = ⟨ "", 0, 0, []⟩ := by
  simp only [dpPlan] at h ⊢
  cases hres : dpOuter ctx cap f (fun _ => 0) [] 0 0 with
  | error e => simp
  | ok r =>
    obtain ⟨dpf, rows, s, p⟩ := r
    rw [hres] at h
    simp at h

theorem select_err (ctx : Ctx) (orders : List Order) (rid : String) (cap : Int)
    (h : (selectOrdersForDelivery ctx orders rid cap).2.isSome) :
    (selectOrdersForDelivery ctx orders rid cap).1 = ⟨ "", 0, 0, []⟩ := by
  by_cases hdeg : orders = [] ∨ cap ≤ 0
  · rw [select_degenerate ctx orders rid cap hdeg] at h
    simp at h
  · push_neg at hdeg
    obtain ⟨h1, h2⟩ := hdeg
    by_cases hth : ((posItems orders).length : Int) * cap > 5000000
    · rw [select_greedy ctx orders rid cap h1 (by omega) hth] at h ⊢
      exact greedyPlan_err ctx _ _ rid cap h
    · rw [select_dp ctx orders rid cap h1 (by omega) hth] at h ⊢
      exact dpPlan_err ctx _ _ rid cap h

theorem generate_err (ctx : Ctx) (execOK : List Int → Bool) (orders : List Order)
    (rid : String) (cap : Int)
    (h : (selectOrdersForDelivery ctx orders rid cap).2.isSome) :
    GenerateDeliveryPlan ctx execOK orders rid cap = (none, []) := by
  unfold GenerateDeliveryPlan
  cases hsel : selectOrdersForDelivery ctx orders rid cap with
  | mk p err =>
    cases err with
    | none => rw [hsel] at h; simp at h
    | some e => rfl

/-- C5: whenever a cancellation checkpoint fires during the allocator's
computation the allocator returns a cancellation failure and the zero
plan, the orchestrator returns no plan, and no status mutation is
committed; moreover in the greedy branch an already-fired signal is
observed at the very first per-item checkpoint. -/
theorem claim5_cancellation_no_plan (ctx : Ctx) (execOK : List Int → Bool)
    (orders : List Order) (rid : String) (cap : Int) :
    ((selectOrdersForDelivery ctx orders rid cap).2.isSome →
      (selectOrdersForDelivery ctx orders rid cap).1 = ⟨ "", 0, 0, []⟩ ∧
      GenerateDeliveryPlan ctx execOK orders rid cap = (none, [])) ∧
    (0 < cap → ((posItems orders).length : Int) * cap > 5000000 → posItems orders ≠ [] →
      ctx 0 = true →
      (selectOrdersForDelivery ctx orders rid cap).2 = some .ctxCanceled) := by
  constructor
  · intro hsome
    exact ⟨select_err ctx orders rid cap hsome, generate_err ctx execOK orders rid cap hsome⟩
  · intro hcap hth hpos hc0
    have h1 : orders ≠ [] := by
      intro he
      exact hpos (by simp [posItems, he])
    rw [select_greedy ctx orders rid cap h1 hcap hth]
    simp only [greedyPlan]
    have hsne : sortDesc (posItems orders) ≠ [] := by
      intro he
      have hperm := sortDesc_perm (posItems orders)
      rw [he] at hperm
      exact hpos (hperm.symm.eq_nil)
    cases hs : sortDesc (posItems orders) with
    | nil => exact absurd hs hsne
    | cons y ys => simp [greedyLoop, hc0]

/-- Witness for C5: an already-expired context cancels the greedy branch;
the zero plan accompanies the error and nothing is committed. -/
theorem claim5_witness :
    ((selectOrdersForDelivery (fun _ => true) [⟨1, 1, 1⟩] "r1" 5000001).2.isSome = true) ∧
    ((selectOrdersForDelivery (fun _ => true) [⟨1, 1, 1⟩] "r1" 5000001).1 = ⟨ "", 0, 0, []⟩ ∧
      GenerateDeliveryPlan (fun _ => true) (fun _ => true) [⟨1, 1, 1⟩] "r1" 5000001 =
        (none, [])) :=
  ⟨by decide,
    (claim5_cancellation_no_plan (fun _ => true) (fun _ => true) [⟨1, 1, 1⟩] "r1" 5000001).1
      (by decide)⟩

/-!  Characterisation of the DP table loops. -/

theorem ok_bind {ε α β : Type} (a : α) (f : α → Except ε β) :
    ((Except.ok a : Except ε α) >>= f) = f a := rfl

theorem error_bind {ε α β : Type} (e : ε) (f : α → Except ε β) :
    ((Except.error e : Except ε α) >>= f) = Except.error e := rfl

theorem descRange_nil (w cap : Int) (h : cap < w) : descRange w cap = [] := by
  unfold descRange
  rw [show (cap + 1 - w).toNat = 0 by omega]
  simp

theorem descRange_cons (w cap : Int) (h : w ≤ cap) :
    descRange w cap = cap :: descRange w (cap - 1) := by
  unfold descRange
  rw [show (cap + 1 - w).toNat = (cap - w).toNat + 1 by omega, List.range_succ_eq_map]
  simp only [List.map_cons, List.map_map]
  congr 1
  · simp
  · rw [show cap - 1 + 1 - w = cap - w by ring]
    apply List.map_congr_left
    intro k _
    simp only [Function.comp_apply]
    push_cast
    ring

theorem dpStep_ok (ctx : Ctx) (w v : Int) (dp : Int → Int) (row : Int → Bool)
    (steps polls : Nat) (c : Int) (dp1 : Int → Int) (row1 : Int → Bool) (s1 p1 : Nat)
    (h : dpStep ctx w v (dp, row, steps, polls) c = .ok (dp1, row1, s1, p1)) :
    (∀ j, dp1 j = if j = c ∧ dp (c - w) + v > dp c then dp (c - w) + v else dp j) ∧
    (∀ j, row1 j = (row j || decide (j = c ∧ dp (c - w) + v > dp c))) := by
  simp only [dpStep] at h
  by_cases hpoll : (steps + 1) % 4096 = 0
  · by_cases hctx : ctx polls = true
    · simp [hpoll, hctx] at h
    · simp only [hpoll, hctx, if_true, if_false, Bool.false_eq_true, ite_true, ite_false] at h
      split at h <;> rename_i himp <;>
        simp only [Except.ok.injEq, Prod.mk.injEq] at h <;>
        obtain ⟨h1, h2, h3, h4⟩ := h
      · subst h1 h2
        constructor
        · intro j
          simp only [setI]
          by_cases hj : j = c
          · subst hj
            rw [if_pos rfl, if_pos ⟨rfl, himp⟩]
          · rw [if_neg hj, if_neg (fun hh => hj hh.1)]
        · intro j
          simp only [setB]
          by_cases hj : j = c
          · subst hj
            rw [if_pos rfl, decide_eq_true ⟨rfl, himp⟩]
            simp
          · rw [if_neg hj, decide_eq_false (fun hh => hj hh.1)]
            simp
      · subst h1 h2
        constructor
        · intro j
          rw [if_neg (fun hh => himp hh.2)]
        · intro j
          rw [decide_eq_false (fun hh => himp hh.2)]
          simp
  · simp only [hpoll, if_false, ite_false] at h
    split at h <;> rename_i himp <;>
      simp only [Except.ok.injEq, Prod.mk.injEq] at h <;>
      obtain ⟨h1, h2, h3, h4⟩ := h
    · subst h1 h2
      constructor
      · intro j
        simp only [setI]
        by_cases hj : j = c
        · subst hj
          rw [if_pos rfl, if_pos ⟨rfl, himp⟩]
        · rw [if_neg hj, if_neg (fun hh => hj hh.1)]
      · intro j
        simp only [setB]
        by_cases hj : j = c
        · subst hj
          rw [if_pos rfl, decide_eq_true ⟨rfl, himp⟩]
          simp
        · rw [if_neg hj, decide_eq_false (fun hh => hj hh.1)]
          simp
    · subst h1 h2
      constructor
      · intro j
        rw [if_neg (fun hh => himp hh.2)]
      · intro j
        rw [decide_eq_false (fun hh => himp hh.2)]
        simp

theorem dpInner_ok (ctx : Ctx) (w v : Int) (hw : 1 ≤ w) :
    ∀ (n : Nat) (cap : Int), (cap + 1 - w).toNat = n →
    ∀ (dp : Int → Int) (row : Int → Bool) (steps polls : Nat)
      (dp2 : Int → Int) (row2 : Int → Bool) (s2 p2 : Nat),
      dpInner ctx w v cap (dp, row, steps, polls) = .ok (dp2, row2, s2, p2) →
      (∀ j, dp2 j = if w ≤ j ∧ j ≤ cap then max (dp j) (dp (j - w) + v) else dp j) ∧
      (∀ j, row2 j = (row j || decide (w ≤ j ∧ j ≤ cap ∧ dp (j - w) + v > dp j))) := by
  intro n
  induction n with
  | zero =>
    intro cap hcap dp row steps polls dp2 row2 s2 p2 h
    have hlt : cap < w := by omega
    rw [dpInner, descRange_nil w cap hlt, List.foldlM_nil] at h
    simp only [pure, Except.pure, Except.ok.injEq, Prod.mk.injEq] at h
    obtain ⟨h1, h2, _, _⟩ := h
    subst h1 h2
    constructor
    · intro j
      rw [if_neg (by omega)]
    · intro j
      rw [decide_eq_false (by rintro ⟨a, b, _⟩; omega)]
      simp
  | succ k ih =>
    intro cap hcap dp row steps polls dp2 row2 s2 p2 h
    have hwcap : w ≤ cap := by omega
    rw [dpInner, descRange_cons w cap hwcap, List.foldlM_cons] at h
    cases hstep : dpStep ctx w v (dp, row, steps, polls) cap with
    | error e =>
      rw [hstep, error_bind] at h
      exact absurd h (by simp)
    | ok s1 =>
      obtain ⟨dp1, row1, st1, pl1⟩ := s1
      rw [hstep, ok_bind] at h
      obtain ⟨hdp1, hrow1⟩ :=
        dpStep_ok ctx w v dp row steps polls cap dp1 row1 st1 pl1 hstep
      obtain ⟨hdp2, hrow2⟩ :=
        ih (cap - 1) (by omega) dp1 row1 st1 pl1 dp2 row2 s2 p2 (by rw [dpInner]; exact h)
      constructor
      · intro j
        rw [hdp2 j, hdp1 j, hdp1 (j - w)]
        simp only [max_def]
        by_cases hj : j = cap
        · subst hj
          split_ifs <;> omega
        · split_ifs <;> omega
      · intro j
        rw [hrow2 j, hrow1 j, hdp1 (j - w), hdp1 j, Bool.or_assoc]
        congr 1
        rw [← Bool.decide_or, decide_eq_decide]
        by_cases hj : j = cap
        · subst hj
          split_ifs <;> omega
        · split_ifs <;> omega

theorem dpOuter_ok (ctx : Ctx) (cap : Int) :
    ∀ (l : List Order) (dp : Int → Int) (rows : List (Int → Bool)) (steps polls : Nat)
      (dp2 : Int → Int) (rows2 : List (Int → Bool)) (s2 p2 : Nat),
      (∀ o ∈ l, 1 ≤ o.weight) →
      dpOuter ctx cap l dp rows steps polls = .ok (dp2, rows2, s2, p2) →
      dp2 = foldPass cap l dp ∧ rows2 = rows ++ rowsOf cap l dp := by
  intro l
  induction l with
  | nil =>
    intro dp rows steps polls dp2 rows2 s2 p2 hwts h
    simp only [dpOuter, Except.ok.injEq, Prod.mk.injEq] at h
    obtain ⟨h1, h2, _, _⟩ := h
    subst h1 h2
    exact ⟨rfl, by simp [rowsOf]⟩
  | cons o rest ih =>
    intro dp rows steps polls dp2 rows2 s2 p2 hwts h
    have hwo : 1 ≤ o.weight := hwts o (by simp)
    have hwrest : ∀ x ∈ rest, 1 ≤ x.weight := fun x hx => hwts x (by simp [hx])
    rw [dpOuter] at h
    split at h
    · rename_i hskip
      obtain ⟨h1, h2⟩ :=
        ih dp (rows ++ [(fun _ => false : Int → Bool)]) steps polls dp2 rows2 s2 p2 hwrest h
      have hid : passUpd cap o.weight o.value dp = dp := by
        funext j
        simp only [passUpd]
        rw [if_neg (by omega)]
      have hrow0 : rowOf cap o.weight o.value dp = (fun _ => false : Int → Bool) := by
        funext j
        simp only [rowOf]
        exact decide_eq_false (by rintro ⟨a, b, _⟩; omega)
      constructor
      · calc dp2 = foldPass cap rest dp := h1
          _ = foldPass cap (o :: rest) dp := by
            simp only [foldPass, List.foldl_cons, hid]
      · rw [h2]
        simp only [rowsOf]
        rw [hid, hrow0]
        simp
    · rename_i hfit
      cases hstep : dpInner ctx o.weight o.value cap (dp, fun _ => false, steps, polls) with
      | error e => rw [hstep] at h; exact absurd h (by simp)
      | ok s1 =>
        obtain ⟨dp1, row1, st1, pl1⟩ := s1
        rw [hstep] at h
        obtain ⟨hdp1, hrow1⟩ :=
          dpInner_ok ctx o.weight o.value hwo _ cap rfl dp (fun _ => false) steps polls
            dp1 row1 st1 pl1 hstep
        have e1 : dp1 = passUpd cap o.weight o.value dp := funext fun j => hdp1 j
        have e2 : row1 = rowOf cap o.weight o.value dp := funext fun j => by
          rw [hrow1 j]
          simp [rowOf]
        subst e1
        subst e2
        obtain ⟨h1, h2⟩ :=
          ih (passUpd cap o.weight o.value dp)
            (rows ++ [rowOf cap o.weight o.value dp]) st1 pl1 dp2 rows2 s2 p2 hwrest h
        constructor
        · exact h1
        · rw [h2]
          simp only [rowsOf]
          simp

/-!  The best-capacity scan. -/

theorem ascRange_nil (cap : Int) (h : cap < 0) : ascRange cap = [] := by
  unfold ascRange
  rw [show (cap + 1).toNat = 0 by omega]
  simp

theorem ascRange_snoc (cap : Int) (h : 0 ≤ cap) :
    ascRange cap = ascRange (cap - 1) ++ [cap] := by
  unfold ascRange
  rw [show (cap + 1).toNat = cap.toNat + 1 by omega, List.range_succ, List.map_append,
    show (cap - 1 + 1).toNat = cap.toNat by omega]
  simp [h]

theorem bestScan_aux (dp : Int → Int) :
    ∀ (n : Nat) (cap : Int), (cap + 1).toNat = n → ∀ (bv bc bv2 bc2 : Int),
      (ascRange cap).foldl (fun best c => if dp c > best.1 then (dp c, c) else best) (bv, bc) =
        (bv2, bc2) →
      ((bv2 = bv ∧ bc2 = bc) ∨ (dp bc2 = bv2 ∧ 0 ≤ bc2 ∧ bc2 ≤ cap)) ∧
      bv ≤ bv2 ∧ (∀ j, 0 ≤ j → j ≤ cap → dp j ≤ bv2) := by
  intro n
  induction n with
  | zero =>
    intro cap hcap bv bc bv2 bc2 h
    rw [ascRange_nil cap (by omega), List.foldl_nil, Prod.mk.injEq] at h
    obtain ⟨h1, h2⟩ := h
    subst h1 h2
    exact ⟨Or.inl ⟨rfl, rfl⟩, le_refl _, fun j hj1 hj2 => by omega⟩
  | succ k ih =>
    intro cap hcap bv bc bv2 bc2 h
    have hcap0 : 0 ≤ cap := by omega
    rw [ascRange_snoc cap hcap0, List.foldl_append] at h
    rcases hfold : (ascRange (cap - 1)).foldl
        (fun best c => if dp c > best.1 then (dp c, c) else best) (bv, bc) with ⟨bv0, bc0⟩
    rw [hfold] at h
    obtain ⟨hd0, hge0, hall0⟩ := ih (cap - 1) (by omega) bv bc bv0 bc0 hfold
    simp only [List.foldl_cons, List.foldl_nil] at h
    split at h <;> rename_i himp <;> rw [Prod.mk.injEq] at h <;> obtain ⟨h1, h2⟩ := h
    · subst h1 h2
      refine ⟨Or.inr ⟨rfl, hcap0, le_refl cap⟩, by omega, ?_⟩
      intro j hj1 hj2
      by_cases hj : j = cap
      · subst hj
        exact le_refl _
      · exact le_trans (hall0 j hj1 (by omega)) (le_of_lt himp)
    · subst h1 h2
      refine ⟨?_, hge0, ?_⟩
      · rcases hd0 with ⟨e1, e2⟩ | ⟨e, b1, b2⟩
        · exact Or.inl ⟨e1, e2⟩
        · exact Or.inr ⟨e, b1, by omega⟩
      · intro j hj1 hj2
        by_cases hj : j = cap
        · subst hj
          omega
        · exact hall0 j hj1 (by omega)

theorem bestScan_spec (dp : Int → Int) (cap : Int) (hcap : 0 ≤ cap) (h0 : dp 0 = 0) :
    dp (bestScan dp cap).2 = (bestScan dp cap).1 ∧ 0 ≤ (bestScan dp cap).2 ∧
    (bestScan dp cap).2 ≤ cap ∧ 0 ≤ (bestScan dp cap).1 ∧
    (∀ j, 0 ≤ j → j ≤ cap → dp j ≤ (bestScan dp cap).1) := by
  rcases hb : bestScan dp cap with ⟨bv2, bc2⟩
  rw [bestScan] at hb
  obtain ⟨hd, hge, hall⟩ := bestScan_aux dp _ cap rfl 0 0 bv2 bc2 hb
  rcases hd with ⟨e1, e2⟩ | ⟨e, b1, b2⟩
  · subst e1 e2
    exact ⟨h0, le_refl 0, hcap, le_refl 0, hall⟩
  · exact ⟨e, b1, b2, hge, hall⟩

theorem bestScan_zero (cap : Int) : bestScan (fun _ => (0 : Int)) cap = (0, 0) := by
  rw [bestScan]
  generalize ascRange cap = L
  induction L with
  | nil => rfl
  | cons c L ih =>
    simp only [List.foldl_cons]
    rw [if_neg (by simp)]
    exact ih

/-!  The knapsack optimum and the table characterisation. -/

theorem sumW_nonneg_of (l : List Order) (h : ∀ o ∈ l, 0 ≤ o.weight) : 0 ≤ sumW l := by
  induction l with
  | nil => simp [sumW]
  | cons o rest ih =>
    rw [sumW_cons]
    have h1 := h o (by simp)
    have h2 := ih (fun o ho => h o (by simp [ho]))
    omega

theorem sublistMax_cons_le (o : Order) (rest : List Order) (dp : Int → Int) (j : Int) :
    sublistMax rest dp j ≤ sublistMax (o :: rest) dp j := by
  simp only [sublistMax]
  split
  · exact le_max_left _ _
  · exact le_refl _

theorem le_sublistMax (dp : Int → Int) :
    ∀ (l S : List Order), S.Sublist l → (∀ o ∈ l, 0 ≤ o.weight) →
      ∀ j, sumW S ≤ j → dp (j - sumW S) + sumV S ≤ sublistMax l dp j := by
  intro l
  induction l with
  | nil =>
    intro S hS _ j hj
    rw [List.sublist_nil.mp hS]
    simp [sublistMax, sumW, sumV]
  | cons o rest ih =>
    intro S hS hwts j hj
    have hwrest : ∀ x ∈ rest, 0 ≤ x.weight := fun x hx => hwts x (by simp [hx])
    cases hS with
    | cons _ hS2 =>
      exact le_trans (ih S hS2 hwrest j hj) (sublistMax_cons_le o rest dp j)
    | cons₂ _ hS2 =>
      rename_i S2
      have hS2w : 0 ≤ sumW S2 :=
        sumW_nonneg_of S2 (fun x hx => hwrest x (hS2.subset hx))
      rw [sumW_cons] at hj
      have hwj : o.weight ≤ j := by omega
      simp only [sublistMax]
      rw [if_pos hwj]
      refine le_trans ?_ (le_max_right _ _)
      have harg : j - sumW (o :: S2) = j - o.weight - sumW S2 := by
        rw [sumW_cons]; ring
      rw [harg, sumV_cons]
      have hih := ih S2 hS2 hwrest (j - o.weight) (by omega)
      calc dp (j - o.weight - sumW S2) + (o.value + sumV S2)
          = dp (j - o.weight - sumW S2) + sumV S2 + o.value := by ring
        _ ≤ sublistMax rest dp (j - o.weight) + o.value := by omega

theorem sublistMax_exists (dp : Int → Int) :
    ∀ (l : List Order) (j : Int), 0 ≤ j → (∀ o ∈ l, 0 ≤ o.weight) →
      ∃ S, S.Sublist l ∧ sumW S ≤ j ∧ sublistMax l dp j = dp (j - sumW S) + sumV S := by
  intro l
  induction l with
  | nil =>
    intro j hj _
    exact ⟨[], List.Sublist.refl [], by simp [sumW]; omega, by simp [sublistMax, sumW, sumV]⟩
  | cons o rest ih =>
    intro j hj hwts
    have hwrest : ∀ x ∈ rest, 0 ≤ x.weight := fun x hx => hwts x (by simp [hx])
    by_cases hwj : o.weight ≤ j
    · simp only [sublistMax]
      rw [if_pos hwj]
      rcases max_choice (sublistMax rest dp j) (sublistMax rest dp (j - o.weight) + o.value)
        with hmax | hmax
      · obtain ⟨S, hsub, hw, he⟩ := ih j hj hwrest
        exact ⟨S, hsub.cons o, hw, by rw [hmax, he]⟩
      · have hwo : 0 ≤ o.weight := hwts o (by simp)
        obtain ⟨S, hsub, hw, he⟩ := ih (j - o.weight) (by omega) hwrest
        refine ⟨o :: S, hsub.cons₂ o, by rw [sumW_cons]; omega, ?_⟩
        rw [hmax, he, sumW_cons, sumV_cons]
        have harg : j - (o.weight + sumW S) = j - o.weight - sumW S := by ring
        rw [harg]
        ring
    · simp only [sublistMax]
      rw [if_neg hwj]
      obtain ⟨S, hsub, hw, he⟩ := ih j hj hwrest
      exact ⟨S, hsub.cons o, hw, he⟩

theorem le_foldl_max (xs : List Int) (a : Int) : a ≤ xs.foldl max a := by
  induction xs generalizing a with
  | nil => exact le_refl a
  | cons x xs ih => exact le_trans (le_max_left a x) (ih (max a x))

theorem mem_le_foldl_max (xs : List Int) (a : Int) : ∀ x ∈ xs, x ≤ xs.foldl max a := by
  induction xs generalizing a with
  | nil => intro x hx; simp at hx
  | cons y xs ih =>
    intro x hx
    rcases List.mem_cons.mp hx with hx | hx
    · subst hx
      exact le_trans (le_max_right a x) (le_foldl_max xs (max a x))
    · exact ih (max a y) x hx

theorem foldl_max_cases (xs : List Int) (a : Int) :
    xs.foldl max a = a ∨ xs.foldl max a ∈ xs := by
  induction xs generalizing a with
  | nil => exact Or.inl rfl
  | cons x xs ih =>
    rcases ih (max a x) with h | h
    · rcases max_choice a x with hm | hm
      · exact Or.inl (by rw [List.foldl_cons, h, hm])
      · refine Or.inr (by rw [List.foldl_cons, h, hm]; simp)
    · exact Or.inr (by simp [List.foldl_cons]; right; exact h)

theorem le_knapsackOpt (l : List Order) (c : Int) (S : List Order)
    (hS : S.Sublist l) (hw : sumW S ≤ c) : sumV S ≤ knapsackOpt l c := by
  unfold knapsackOpt
  apply mem_le_foldl_max
  exact List.mem_map.mpr
    ⟨S, List.mem_filter.mpr ⟨List.mem_sublists.mpr hS, by simp [hw]⟩, rfl⟩

theorem knapsackOpt_nonneg (l : List Order) (c : Int) : 0 ≤ knapsackOpt l c :=
  le_foldl_max _ _

theorem knapsackOpt_attained (l : List Order) (c : Int) (hc : 0 ≤ c) :
    ∃ S, S.Sublist l ∧ sumW S ≤ c ∧ knapsackOpt l c = sumV S := by
  rcases foldl_max_cases ((l.sublists.filter (fun s => decide (sumW s ≤ c))).map sumV) 0
    with h | h
  · exact ⟨[], List.nil_sublist l, by simp [sumW]; omega, by
      unfold knapsackOpt; rw [h]; simp [sumV]⟩
  · obtain ⟨S, hSf, hSv⟩ := List.mem_map.mp h
    obtain ⟨hsubl, hcond⟩ := List.mem_filter.mp hSf
    exact ⟨S, List.mem_sublists.mp hsubl, by simpa using hcond, by
      unfold knapsackOpt; rw [← hSv]⟩

theorem knapsackOpt_mono (l : List Order) (c1 c2 : Int) (hc : 0 ≤ c1) (h : c1 ≤ c2) :
    knapsackOpt l c1 ≤ knapsackOpt l c2 := by
  obtain ⟨S, hsub, hw, he⟩ := knapsackOpt_attained l c1 hc
  rw [he]
  exact le_knapsackOpt l c2 S hsub (by omega)

theorem sublistMax_zero_eq (l : List Order) (j : Int) (hj : 0 ≤ j)
    (hw : ∀ o ∈ l, 0 ≤ o.weight) :
    sublistMax l (fun _ => (0 : Int)) j = knapsackOpt l j := by
  apply le_antisymm
  · obtain ⟨S, hsub, hSw, he⟩ := sublistMax_exists (fun _ => (0 : Int)) l j hj hw
    rw [he]
    simpa using le_knapsackOpt l j S hsub hSw
  · obtain ⟨S, hsub, hSw, he⟩ := knapsackOpt_attained l j hj
    rw [he]
    simpa using le_sublistMax (fun _ => (0 : Int)) l S hsub hw j hSw

theorem sublistMax_passUpd (cap w v : Int) (hw : 1 ≤ w) :
    ∀ (l : List Order), (∀ o ∈ l, 1 ≤ o.weight) →
      ∀ (dp : Int → Int) (j : Int), 0 ≤ j → j ≤ cap →
      sublistMax l (passUpd cap w v dp) j =
        if w ≤ j then max (sublistMax l dp j) (sublistMax l dp (j - w) + v)
        else sublistMax l dp j := by
  intro l
  induction l with
  | nil =>
    intro _ dp j hj0 hjc
    simp only [sublistMax, passUpd, max_def]
    split_ifs <;> omega
  | cons o rest ih =>
    intro hwts dp j hj0 hjc
    have hwo : 1 ≤ o.weight := hwts o (by simp)
    have hwrest : ∀ x ∈ rest, 1 ≤ x.weight := fun x hx => hwts x (by simp [hx])
    by_cases hoj : o.weight ≤ j
    · simp only [sublistMax, if_pos hoj]
      rw [ih hwrest dp j hj0 hjc, ih hwrest dp (j - o.weight) (by omega) (by omega)]
      rw [show j - w - o.weight = j - o.weight - w by ring]
      simp only [max_def]
      split_ifs <;> omega
    · simp only [sublistMax, if_neg hoj]
      rw [ih hwrest dp j hj0 hjc]
      rw [if_neg (show ¬o.weight ≤ j - w by omega)]

theorem foldPass_eq_sublistMax (cap : Int) :
    ∀ (l : List Order), (∀ o ∈ l, 1 ≤ o.weight) →
      ∀ (dp : Int → Int) (j : Int), 0 ≤ j → j ≤ cap →
      foldPass cap l dp j = sublistMax l dp j := by
  intro l
  induction l with
  | nil =>
    intro _ dp j _ _
    rfl
  | cons o rest ih =>
    intro hwts dp j hj0 hjc
    have hwo : 1 ≤ o.weight := hwts o (by simp)
    have hwrest : ∀ x ∈ rest, 1 ≤ x.weight := fun x hx => hwts x (by simp [hx])
    have h1 : foldPass cap (o :: rest) dp j =
        foldPass cap rest (passUpd cap o.weight o.value dp) j := rfl
    rw [h1, ih hwrest (passUpd cap o.weight o.value dp) j hj0 hjc,
      sublistMax_passUpd cap o.weight o.value hwo rest hwrest dp j hj0 hjc]
    simp only [sublistMax]

theorem foldPass_zero (cap : Int) :
    ∀ (l : List Order), (∀ o ∈ l, 1 ≤ o.weight) →
      ∀ (dp : Int → Int) (j : Int), j ≤ 0 → foldPass cap l dp j = dp j := by
  intro l
  induction l with
  | nil =>
    intro _ dp j _
    rfl
  | cons o rest ih =>
    intro hwts dp j hj
    have hwo : 1 ≤ o.weight := hwts o (by simp)
    have hwrest : ∀ x ∈ rest, 1 ≤ x.weight := fun x hx => hwts x (by simp [hx])
    have h1 : foldPass cap (o :: rest) dp j =
        foldPass cap rest (passUpd cap o.weight o.value dp) j := rfl
    rw [h1, ih hwrest (passUpd cap o.weight o.value dp) j hj]
    simp only [passUpd]
    rw [if_neg (by omega)]

/-!  The reconstruction walk. -/

theorem rowsOf_length (cap : Int) :
    ∀ (l : List Order) (dp : Int → Int), (rowsOf cap l dp).length = l.length := by
  intro l
  induction l with
  | nil => intro dp; rfl
  | cons o rest ih =>
    intro dp
    simp only [rowsOf, List.length_cons, ih]

theorem rowsOf_append_one (cap : Int) :
    ∀ (l : List Order) (o : Order) (dp : Int → Int),
      rowsOf cap (l ++ [o]) dp =
        rowsOf cap l dp ++ [rowOf cap o.weight o.value (foldPass cap l dp)] := by
  intro l
  induction l with
  | nil => intro o dp; rfl
  | cons x rest ih =>
    intro o dp
    have h1 : rowsOf cap ((x :: rest) ++ [o]) dp =
        rowOf cap x.weight x.value dp ::
          rowsOf cap (rest ++ [o]) (passUpd cap x.weight x.value dp) := rfl
    have h2 : rowsOf cap (x :: rest) dp =
        rowOf cap x.weight x.value dp ::
          rowsOf cap rest (passUpd cap x.weight x.value dp) := rfl
    have h3 : foldPass cap (x :: rest) dp =
        foldPass cap rest (passUpd cap x.weight x.value dp) := rfl
    rw [h1, ih o (passUpd cap x.weight x.value dp), h2, h3]
    simp

theorem foldPass_append_one (cap : Int) (l : List Order) (o : Order) (dp : Int → Int) :
    foldPass cap (l ++ [o]) dp = passUpd cap o.weight o.value (foldPass cap l dp) := by
  simp [foldPass, List.foldl_append]

theorem recon_sublist :
    ∀ (pairs : List (Order × (Int → Bool))) (c : Int),
      (reconstruct pairs c).Sublist (pairs.map Prod.fst) := by
  intro pairs
  induction pairs with
  | nil => intro c; exact List.Sublist.refl []
  | cons p rest ih =>
    intro c
    obtain ⟨o, row⟩ := p
    simp only [reconstruct, List.map_cons]
    split
    · exact List.nil_sublist _
    · split
      · exact (ih (c - o.weight)).cons₂ o
      · exact (ih c).cons o

theorem recon_spec (cap : Int) :
    ∀ (l : List Order), (∀ o ∈ l, 1 ≤ o.weight) → ∀ (c : Int), 0 ≤ c → c ≤ cap →
      sumV (reconstruct ((l.zip (rowsOf cap l (fun _ => 0))).reverse) c) =
          foldPass cap l (fun _ => 0) c ∧
      sumW (reconstruct ((l.zip (rowsOf cap l (fun _ => 0))).reverse) c) ≤ c := by
  intro l
  induction l using List.reverseRecOn with
  | nil =>
    intro _ c hc0 hcc
    simp only [List.zip_nil_left, List.reverse_nil, reconstruct]
    constructor
    · simp [foldPass, sumV]
    · simp [sumW]
      omega
  | append_singleton rest o ih =>
    intro hwts c hc0 hcc
    have hwo : 1 ≤ o.weight := hwts o (by simp)
    have hwrest : ∀ x ∈ rest, 1 ≤ x.weight := fun x hx => hwts x (by simp [hx])
    have hlen : rest.length = (rowsOf cap rest (fun _ => 0)).length :=
      (rowsOf_length cap rest _).symm
    rw [rowsOf_append_one, List.zip_append hlen, List.reverse_append, foldPass_append_one]
    simp only [List.zip_cons_cons, List.zip_nil_right, List.reverse_cons, List.reverse_nil,
      List.nil_append, List.singleton_append]
    simp only [reconstruct]
    by_cases hc : c ≤ 0
    · rw [if_pos hc]
      have hc0e : c = 0 := by omega
      subst hc0e
      constructor
      · have hz : foldPass cap rest (fun _ => 0) 0 = 0 :=
          foldPass_zero cap rest hwrest (fun _ => 0) 0 le_rfl
        simp only [passUpd]
        rw [if_neg (by omega), hz]
        simp [sumV]
      · simp [sumW]
    · rw [if_neg hc]
      by_cases hrow : rowOf cap o.weight o.value (foldPass cap rest (fun _ => 0)) c = true
      · rw [if_pos hrow]
        have hprop : o.weight ≤ c ∧ c ≤ cap ∧
            foldPass cap rest (fun _ => 0) (c - o.weight) + o.value >
              foldPass cap rest (fun _ => 0) c := of_decide_eq_true hrow
        obtain ⟨ihv, ihw⟩ := ih hwrest (c - o.weight) (by omega) (by omega)
        constructor
        · rw [sumV_cons, ihv]
          simp only [passUpd]
          rw [if_pos ⟨hprop.1, hcc⟩, max_eq_right (le_of_lt hprop.2.2)]
          ring
        · rw [sumW_cons]
          omega
      · rw [if_neg hrow]
        obtain ⟨ihv, ihw⟩ := ih hwrest c hc0 hcc
        refine ⟨?_, ihw⟩
        rw [ihv]
        have hnp : ¬(o.weight ≤ c ∧ c ≤ cap ∧
            foldPass cap rest (fun _ => 0) (c - o.weight) + o.value >
              foldPass cap rest (fun _ => 0) c) := by
          intro hp
          exact hrow (decide_eq_true hp)
        simp only [passUpd]
        by_cases hwc : o.weight ≤ c
        · have hle : foldPass cap rest (fun _ => 0) (c - o.weight) + o.value ≤
              foldPass cap rest (fun _ => 0) c := by
            by_contra hgt
            exact hnp ⟨hwc, hcc, by omega⟩
          rw [if_pos ⟨hwc, hcc⟩, max_eq_left hle]
        · rw [if_neg (by intro hh; exact hwc hh.1)]

/-!  Full characterisation of the exact-DP branch. -/

theorem dpPlan_ok (ctx : Ctx) (z f : List Order) (rid : String) (cap : Int)
    (hwf : ∀ o ∈ f, 1 ≤ o.weight) (hcap : 0 < cap)
    (hok : (dpPlan ctx z f rid cap).2 = none) :
    ∃ sel, sel.Sublist f ∧ sumW sel ≤ cap ∧ sumV sel = knapsackOpt f cap ∧
      (dpPlan ctx z f rid cap).1 =
        ⟨rid, sumW z + sumW sel, sumV z + sumV sel, sel ++ z.reverse⟩ := by
  obtain ⟨dpf, rows, s, p, hres, hplan⟩ := dpPlan_shape ctx z f rid cap hok
  obtain ⟨hdp, hrows⟩ := dpOuter_ok ctx cap f (fun _ => 0) [] 0 0 dpf rows s p hwf hres
  rw [List.nil_append] at hrows
  subst hdp hrows
  have hw0 : ∀ o ∈ f, 0 ≤ o.weight := fun o ho => by have := hwf o ho; omega
  have htab : ∀ j, 0 ≤ j → j ≤ cap → foldPass cap f (fun _ => 0) j = knapsackOpt f j := by
    intro j hj0 hjc
    rw [foldPass_eq_sublistMax cap f hwf (fun _ => 0) j hj0 hjc,
      sublistMax_zero_eq f j hj0 hw0]
  have h00 : foldPass cap f (fun _ => 0) 0 = 0 :=
    foldPass_zero cap f hwf (fun _ => 0) 0 le_rfl
  obtain ⟨hbsc, hbc0, hbcc, hbv0, hball⟩ :=
    bestScan_spec (foldPass cap f (fun _ => 0)) cap (by omega) h00
  obtain ⟨hRv, hRw⟩ :=
    recon_spec cap f hwf (bestScan (foldPass cap f (fun _ => 0)) cap).2 hbc0 hbcc
  have hbv : (bestScan (foldPass cap f (fun _ => 0)) cap).1 = knapsackOpt f cap := by
    apply le_antisymm
    · rw [← hbsc, htab _ hbc0 hbcc]
      exact knapsackOpt_mono f _ cap hbc0 hbcc
    · have h2 := hball cap (by omega) le_rfl
      rw [htab cap (by omega) le_rfl] at h2
      exact h2
  refine ⟨(reconstruct ((f.zip (rowsOf cap f (fun _ => 0))).reverse)
      (bestScan (foldPass cap f (fun _ => 0)) cap).2).reverse, ?_, ?_, ?_, ?_⟩
  · have h1 := recon_sublist ((f.zip (rowsOf cap f (fun _ => 0))).reverse)
      (bestScan (foldPass cap f (fun _ => 0)) cap).2
    rw [List.map_reverse,
      List.map_fst_zip f _ (by rw [rowsOf_length])] at h1
    have h2 := h1.reverse
    rwa [List.reverse_reverse] at h2
  · rw [sumW_reverse]
    omega
  · rw [sumV_reverse, hRv, hbsc, hbv]
  · rw [hplan, sumW_append, sumV_append, List.reverse_append, sumW_reverse, sumV_reverse]

theorem dpPlan_empty (ctx : Ctx) (rid : String) (cap : Int) :
    dpPlan ctx [] [] rid cap = (⟨rid, 0, 0, []⟩, none) := by
  have h : dpOuter ctx cap [] (fun _ => 0) [] 0 0 =
      .ok (fun _ => 0, ([] : List (Int → Bool)), 0, 0) := rfl
  simp only [dpPlan, h]
  rw [bestScan_zero]
  rfl

theorem dpStep_none_ok (w v : Int) (s : DPState) (c : Int) :
    ∃ s2, dpStep ctxNone w v s c = .ok s2 := by
  simp only [dpStep, ctxNone]
  by_cases hp : (s.2.2.1 + 1) % 4096 = 0
  · simp only [hp, if_true, Bool.false_eq_true, if_false, ite_true, ite_false]
    split
    · exact ⟨_, rfl⟩
    · exact ⟨_, rfl⟩
  · simp only [hp, if_false, ite_false]
    split
    · exact ⟨_, rfl⟩
    · exact ⟨_, rfl⟩

theorem foldlM_none_ok (w v : Int) :
    ∀ (L : List Int) (s : DPState), ∃ s2, L.foldlM (dpStep ctxNone w v) s = .ok s2 := by
  intro L
  induction L with
  | nil => intro s; exact ⟨s, rfl⟩
  | cons c L ih =>
    intro s
    obtain ⟨s1, hs1⟩ := dpStep_none_ok w v s c
    rw [List.foldlM_cons, hs1, ok_bind]
    exact ih s1

theorem dpOuter_none_ok (cap : Int) :
    ∀ (l : List Order) (dp : Int → Int) (rows : List (Int → Bool)) (steps polls : Nat),
      ∃ r, dpOuter ctxNone cap l dp rows steps polls = .ok r := by
  intro l
  induction l with
  | nil => intro dp rows steps polls; exact ⟨_, rfl⟩
  | cons o rest ih =>
    intro dp rows steps polls
    rw [dpOuter]
    split
    · exact ih dp _ steps polls
    · obtain ⟨s1, hs1⟩ := foldlM_none_ok o.weight o.value (descRange o.weight cap)
        (dp, fun _ => false, steps, polls)
      rw [show dpInner ctxNone o.weight o.value cap (dp, fun _ => false, steps, polls) =
        (descRange o.weight cap).foldlM (dpStep ctxNone o.weight o.value)
          (dp, fun _ => false, steps, polls) from rfl, hs1]
      obtain ⟨dp1, row1, st1, pl1⟩ := s1
      exact ih dp1 _ st1 pl1

theorem dpPlan_none_ok (z f : List Order) (rid : String) (cap : Int) :
    (dpPlan ctxNone z f rid cap).2 = none := by
  simp only [dpPlan]
  obtain ⟨r, hr⟩ := dpOuter_none_ok cap f (fun _ => 0) [] 0 0
  rw [hr]

/-!  The remaining claims. -/

/-- C1: for positive capacity every successful plan's selected weight sum
(and its recorded aggregate weight) is at most the capacity; for capacity
≤ 0 the allocator returns the empty plan. -/
theorem claim1_weight_le_capacity (ctx : Ctx) (orders : List Order) (rid : String) (cap : Int) :
    (0 < cap → (selectOrdersForDelivery ctx orders rid cap).2 = none →
      sumW (selectOrdersForDelivery ctx orders rid cap).1.orders ≤ cap ∧
      (selectOrdersForDelivery ctx orders rid cap).1.totalWeight ≤ cap) ∧
    (cap ≤ 0 → selectOrdersForDelivery ctx orders rid cap = (⟨rid, 0, 0, []⟩, none)) := by
  constructor
  · intro hcap hok
    by_cases h1 : orders = []
    · rw [select_degenerate ctx orders rid cap (Or.inl h1)]
      constructor <;> simp [sumW] <;> omega
    · by_cases hth : ((posItems orders).length : Int) * cap > 5000000
      · rw [select_greedy ctx orders rid cap h1 hcap hth] at hok ⊢
        obtain ⟨picked, hsub, hplan, hw⟩ := greedyPlan_ok ctx _ _ rid cap hok
        rw [hplan]
        have hz : sumW (zeroItems orders) ≤ 0 := sumW_nonpos _ zeroItems_weight
        have hpw := hw (by omega)
        constructor
        · dsimp only
          rw [sumW_append]
          omega
        · dsimp only
          omega
      · rw [select_dp ctx orders rid cap h1 hcap hth] at hok ⊢
        obtain ⟨sel, hsub, hsw, hsv, hplan⟩ :=
          dpPlan_ok ctx _ _ rid cap posItems_weight hcap hok
        rw [hplan]
        have hz : sumW (zeroItems orders) ≤ 0 := sumW_nonpos _ zeroItems_weight
        constructor
        · dsimp only
          rw [sumW_append, sumW_reverse]
          omega
        · dsimp only
          omega
  · intro hcap
    exact select_degenerate ctx orders rid cap (Or.inr hcap)

/-- Witness for C1 at the spec's end-to-end example. -/
theorem claim1_witness :
    ((0 : Int) < 4 ∧
      (selectOrdersForDelivery ctxNone [⟨1, 2, 10⟩, ⟨2, 3, 15⟩, ⟨3, 0, 5⟩] "r1" 4).2 = none) ∧
    (sumW (selectOrdersForDelivery ctxNone [⟨1, 2, 10⟩, ⟨2, 3, 15⟩, ⟨3, 0, 5⟩] "r1" 4).1.orders
        ≤ 4 ∧
      (selectOrdersForDelivery ctxNone [⟨1, 2, 10⟩, ⟨2, 3, 15⟩, ⟨3, 0, 5⟩] "r1" 4).1.totalWeight
        ≤ 4) :=
  ⟨⟨by decide, by decide⟩,
    (claim1_weight_le_capacity ctxNone [⟨1, 2, 10⟩, ⟨2, 3, 15⟩, ⟨3, 0, 5⟩] "r1" 4).1
      (by decide) (by decide)⟩

/-- C2: with positive capacity, at or below the cell budget the allocator
runs the exact DP branch and a successful plan's aggregate value is the
knapsack optimum over the positive-weight orders plus the set-aside
zero-weight orders' values; strictly above the budget it runs the greedy
branch. -/
theorem claim2_dp_exact_optimal (ctx : Ctx) (orders : List Order) (rid : String) (cap : Int)
    (hcap : 0 < cap) :
    (((posItems orders).length : Int) * cap ≤ 5000000 →
      selectOrdersForDelivery ctx orders rid cap =
        dpPlan ctx (zeroItems orders) (posItems orders) rid cap ∧
      ((selectOrdersForDelivery ctx orders rid cap).2 = none →
        (selectOrdersForDelivery ctx orders rid cap).1.totalValue =
          knapsackOpt (posItems orders) cap + sumV (zeroItems orders))) ∧
    (((posItems orders).length : Int) * cap > 5000000 →
      selectOrdersForDelivery ctx orders rid cap =
        greedyPlan ctx (zeroItems orders) (posItems orders) rid cap) := by
  constructor
  · intro hth
    have hsel : selectOrdersForDelivery ctx orders rid cap =
        dpPlan ctx (zeroItems orders) (posItems orders) rid cap := by
      by_cases h1 : orders = []
      · subst h1
        rw [select_degenerate ctx [] rid cap (Or.inl rfl)]
        rw [show zeroItems ([] : List Order) = [] from rfl,
          show posItems ([] : List Order) = [] from rfl, dpPlan_empty]
      · exact select_dp ctx orders rid cap h1 hcap (by omega)
    refine ⟨hsel, ?_⟩
    intro hok
    rw [hsel] at hok ⊢
    obtain ⟨sel, hsub, hsw, hsv, hplan⟩ :=
      dpPlan_ok ctx _ _ rid cap posItems_weight hcap hok
    rw [hplan]
    dsimp only
    omega
  · intro hth
    have h1 : orders ≠ [] := by
      intro he
      rw [he] at hth
      norm_num [posItems] at hth
    exact select_greedy ctx orders rid cap h1 hcap hth

/-- Witness for C2 at the spec's end-to-end example (optimum 20 = 15 + 5). -/
theorem claim2_witness :
    (0 : Int) < 4 ∧
    ((((posItems [⟨1, 2, 10⟩, ⟨2, 3, 15⟩, ⟨3, 0, 5⟩]).length : Int) * 4 ≤ 5000000 →
      selectOrdersForDelivery ctxNone [⟨1, 2, 10⟩, ⟨2, 3, 15⟩, ⟨3, 0, 5⟩] "r1" 4 =
        dpPlan ctxNone (zeroItems [⟨1, 2, 10⟩, ⟨2, 3, 15⟩, ⟨3, 0, 5⟩])
          (posItems [⟨1, 2, 10⟩, ⟨2, 3, 15⟩, ⟨3, 0, 5⟩]) "r1" 4 ∧
      ((selectOrdersForDelivery ctxNone [⟨1, 2, 10⟩, ⟨2, 3, 15⟩, ⟨3, 0, 5⟩] "r1" 4).2 = none →
        (selectOrdersForDelivery ctxNone [⟨1, 2, 10⟩, ⟨2, 3, 15⟩, ⟨3, 0, 5⟩] "r1" 4).1.totalValue =
          knapsackOpt (posItems [⟨1, 2, 10⟩, ⟨2, 3, 15⟩, ⟨3, 0, 5⟩]) 4 +
            sumV (zeroItems [⟨1, 2, 10⟩, ⟨2, 3, 15⟩, ⟨3, 0, 5⟩]))) ∧
    (((posItems [⟨1, 2, 10⟩, ⟨2, 3, 15⟩, ⟨3, 0, 5⟩]).length : Int) * 4 > 5000000 →
      selectOrdersForDelivery ctxNone [⟨1, 2, 10⟩, ⟨2, 3, 15⟩, ⟨3, 0, 5⟩] "r1" 4 =
        greedyPlan ctxNone (zeroItems [⟨1, 2, 10⟩, ⟨2, 3, 15⟩, ⟨3, 0, 5⟩])
          (posItems [⟨1, 2, 10⟩, ⟨2, 3, 15⟩, ⟨3, 0, 5⟩]) "r1" 4)) :=
  ⟨by decide,
    claim2_dp_exact_optimal ctxNone [⟨1, 2, 10⟩, ⟨2, 3, 15⟩, ⟨3, 0, 5⟩] "r1" 4 (by decide)⟩

/-- C6: on any input within the spec's data model (non-negative values)
with the cell budget at or above the threshold, the greedy branch's
successful result never exceeds the capacity in weight, and its aggregate
value is non-negative and bounded by the exact DP branch's value on the
same (orders, capacity) input. -/
theorem claim6_greedy_bounds (ctx : Ctx) (orders : List Order) (rid : String) (cap : Int)
    (hcap : 0 < cap) (hv : ∀ o ∈ orders, 0 ≤ o.value)
    (hth : 5000000 ≤ ((posItems orders).length : Int) * cap)
    (hok : (greedyPlan ctx (zeroItems orders) (posItems orders) rid cap).2 = none) :
    (greedyPlan ctx (zeroItems orders) (posItems orders) rid cap).1.totalWeight ≤ cap ∧
    0 ≤ (greedyPlan ctx (zeroItems orders) (posItems orders) rid cap).1.totalValue ∧
    (greedyPlan ctx (zeroItems orders) (posItems orders) rid cap).1.totalValue ≤
      (dpPlan ctxNone (zeroItems orders) (posItems orders) rid cap).1.totalValue := by
  obtain ⟨picked, hsub, hplan, hw⟩ := greedyPlan_ok ctx _ _ rid cap hok
  have hz : sumW (zeroItems orders) ≤ 0 := sumW_nonpos _ zeroItems_weight
  have hpickmem : ∀ o ∈ picked, o ∈ posItems orders := fun o ho =>
    (sortDesc_perm (posItems orders)).mem_iff.mp (hsub.subset ho)
  have hpv : 0 ≤ sumV picked :=
    sumV_nonneg picked (fun o ho => hv o (mem_posItems.mp (hpickmem o ho)).1)
  obtain ⟨sel, hsel, hselw, hselv, hdplan⟩ :=
    dpPlan_ok ctxNone (zeroItems orders) (posItems orders) rid cap posItems_weight hcap
      (dpPlan_none_ok _ _ rid cap)
  have hzv : 0 ≤ sumV (zeroItems orders) :=
    sumV_nonneg _ (fun o ho => hv o (mem_zeroItems.mp ho).1)
  have hsubperm : picked.Subperm (posItems orders) :=
    hsub.subperm.trans (sortDesc_perm (posItems orders)).subperm
  obtain ⟨S2, hS2p, hS2s⟩ := hsubperm
  have hS2w : sumW S2 = sumW picked := sumW_perm hS2p
  have hS2v : sumV S2 = sumV picked := sumV_perm hS2p
  have hple : sumV picked ≤ knapsackOpt (posItems orders) cap := by
    rw [← hS2v]
    exact le_knapsackOpt _ cap S2 hS2s (by rw [hS2w]; exact hw (by omega))
  rw [hplan, hdplan]
  dsimp only
  have hpw := hw (by omega)
  refine ⟨by omega, by omega, by omega⟩

/-- Witness for C6 at a concrete above-threshold input. -/
theorem claim6_witness :
    ((0 : Int) < 5000000 ∧ (∀ o ∈ ([⟨1, 1, 1⟩] : List Order), 0 ≤ o.value) ∧
      5000000 ≤ ((posItems [⟨1, 1, 1⟩]).length : Int) * 5000000 ∧
      (greedyPlan ctxNone (zeroItems [⟨1, 1, 1⟩]) (posItems [⟨1, 1, 1⟩]) "r1" 5000000).2 =
        none) ∧
    ((greedyPlan ctxNone (zeroItems [⟨1, 1, 1⟩]) (posItems [⟨1, 1, 1⟩]) "r1"
        5000000).1.totalWeight ≤ 5000000 ∧
      0 ≤ (greedyPlan ctxNone (zeroItems [⟨1, 1, 1⟩]) (posItems [⟨1, 1, 1⟩]) "r1"
        5000000).1.totalValue ∧
      (greedyPlan ctxNone (zeroItems [⟨1, 1, 1⟩]) (posItems [⟨1, 1, 1⟩]) "r1"
          5000000).1.totalValue ≤
        (dpPlan ctxNone (zeroItems [⟨1, 1, 1⟩]) (posItems [⟨1, 1, 1⟩]) "r1"
          5000000).1.totalValue) :=
  ⟨⟨by decide, by decide, by decide, by decide⟩,
    claim6_greedy_bounds ctxNone [⟨1, 1, 1⟩] "r1" 5000000 (by decide) (by decide) (by decide)
      (by decide)⟩

/-- C10: in the exact-DP branch the successful plan lists the selected
positive-weight orders in ascending original input order (a sublist of the
preprocessed list) followed by the zero-weight orders in reverse of their
original input order. -/
theorem claim10_dp_result_order (ctx : Ctx) (orders : List Order) (rid : String) (cap : Int)
    (h1 : orders ≠ []) (hcap : 0 < cap)
    (hth : ((posItems orders).length : Int) * cap ≤ 5000000)
    (hok : (selectOrdersForDelivery ctx orders rid cap).2 = none) :
    ∃ sel, sel.Sublist (posItems orders) ∧
      (selectOrdersForDelivery ctx orders rid cap).1.orders =
        sel ++ (zeroItems orders).reverse := by
  rw [select_dp ctx orders rid cap h1 hcap (by omega)] at hok ⊢
  obtain ⟨sel, hsub, _, _, hplan⟩ := dpPlan_ok ctx _ _ rid cap posItems_weight hcap hok
  exact ⟨sel, hsub, by rw [hplan]⟩

/-- Witness for C10 at a concrete input with two zero-weight orders. -/
theorem claim10_witness :
    (([⟨1, 2, 10⟩, ⟨2, 0, 5⟩, ⟨3, 0, 6⟩] : List Order) ≠ [] ∧ (0 : Int) < 4 ∧
      ((posItems [⟨1, 2, 10⟩, ⟨2, 0, 5⟩, ⟨3, 0, 6⟩]).length : Int) * 4 ≤ 5000000 ∧
      (selectOrdersForDelivery ctxNone [⟨1, 2, 10⟩, ⟨2, 0, 5⟩, ⟨3, 0, 6⟩] "r1" 4).2 = none) ∧
    (∃ sel, sel.Sublist (posItems [⟨1, 2, 10⟩, ⟨2, 0, 5⟩, ⟨3, 0, 6⟩]) ∧
      (selectOrdersForDelivery ctxNone [⟨1, 2, 10⟩, ⟨2, 0, 5⟩, ⟨3, 0, 6⟩] "r1" 4).1.orders =
        sel ++ (zeroItems [⟨1, 2, 10⟩, ⟨2, 0, 5⟩, ⟨3, 0, 6⟩]).reverse) :=
  ⟨⟨by decide, by decide, by decide, by decide⟩,
    claim10_dp_result_order ctxNone [⟨1, 2, 10⟩, ⟨2, 0, 5⟩, ⟨3, 0, 6⟩] "r1" 4
      (by decide) (by decide) (by decide) (by decide)⟩

end OxTuning
